import Mathlib

/-!
Verification of the parallel ufunc dispatcher of numba/npyufunc/parallel.py.

The source is a code generator emitting straight-line LLVM IR.  We embed the
semantics of the GENERATED code: the chunk-partitioning loop of
build_ufunc_kernel / build_gufunc_kernel, the per-lane chunk pointer
computation, the task-submission call sequence, the generated compare-and-swap
function of _make_cas_function, the lifetime guard _ProtectEngineDestroy, and
the module-load launch logic around _DYLD_WORKAROUND.

Machine integers of pointer width w are modelled as Nat with explicit
reduction modulo 2 ^ w at every arithmetic instruction, mirroring the LLVM
add / sub / mul / udiv instructions the builder emits.
-/

namespace NumbaParallel

/-- Wrapping addition at bit width w, as the LLVM add instruction. -/
def wadd (w a b : Nat) : Nat := (a + b) % 2 ^ w

/-- Wrapping multiplication at bit width w, as the LLVM mul instruction. -/
def wmul (w a b : Nat) : Nat := (a * b) % 2 ^ w

/-- Wrapping subtraction at bit width w, as the LLVM sub instruction:
two-complement subtraction of w-bit words. -/
def wsub (w a b : Nat) : Nat := (a % 2 ^ w + (2 ^ w - b % 2 ^ w)) % 2 ^ w

/-- Truncation of the Python-level constant NUM_CPU to the intp width, as
performed by lc.Constant.int(total.type, NUM_CPU). -/
def ncpuConst (w T : Nat) : Nat := T % 2 ^ w

/-- Embedding of the work-distribution loop of build_ufunc_kernel
(and identically build_gufunc_kernel): `for i in range(NUM_CPU)` with n
iterations remaining, holding the running value of `remain`; every
non-last iteration stores `count` and updates
`remain = builder.sub(remain, count)`, the last iteration stores `remain`. -/
def chunkCountsGo (w count : Nat) : Nat → Nat → List Nat
  | _, 0 => []
  | remain, 1 => [remain]
  | remain, n + 2 => count :: chunkCountsGo w count (wsub w remain count) (n + 1)

/-- The per-chunk counts stored into the T dimension buffers by the generated
dispatcher: `count = builder.udiv(total, ncpu)` with the ncpu constant
truncated to width w, then the distribution loop. -/
def chunkCounts (w T total : Nat) : List Nat :=
  chunkCountsGo w (total / ncpuConst w T) total T

/-- The successive values of the running `remain` register at the start of
each of the T loop iterations. -/
def chunkRemaindersGo (w count : Nat) : Nat → Nat → List Nat
  | _, 0 => []
  | remain, 1 => [remain]
  | remain, n + 2 => remain :: chunkRemaindersGo w count (wsub w remain count) (n + 1)

/-- Running remainder values of the distribution loop of the dispatcher. -/
def chunkRemainders (w T total : Nat) : List Nat :=
  chunkRemaindersGo w (total / ncpuConst w T) total T

theorem wsub_eq_sub (w a b : Nat) (hb : b ≤ a) (ha : a < 2 ^ w) :
    wsub w a b = a - b := by
  have hb2 : b < 2 ^ w := lt_of_le_of_lt hb ha
  unfold wsub
  rw [Nat.mod_eq_of_lt ha, Nat.mod_eq_of_lt hb2]
  have h1 : a + (2 ^ w - b) = 2 ^ w + (a - b) := by omega
  rw [h1, Nat.add_mod_left, Nat.mod_eq_of_lt (by omega)]

/-- Characterization of the distribution loop when the running remainder
never underflows: the first n - 1 stored values are count and the last is
the exact natural remainder. -/
theorem chunkCountsGo_eq (w count : Nat) :
    ∀ n remain, 1 ≤ n → (n - 1) * count ≤ remain → remain < 2 ^ w →
    chunkCountsGo w count remain n
      = List.replicate (n - 1) count ++ [remain - (n - 1) * count] := by
  intro n
  induction n with
  | zero => intro remain h1 _ _; omega
  | succ m ih =>
    intro remain _ hle hlt
    match m with
    | 0 => simp [chunkCountsGo]
    | k + 1 =>
      have hle1 : (k + 1) * count ≤ remain := by
        simpa only [Nat.add_sub_cancel] using hle
      have hexp : (k + 1) * count = k * count + count := by ring
      have hcle : count ≤ remain := by omega
      have hstep : wsub w remain count = remain - count :=
        wsub_eq_sub w remain count hcle hlt
      have hle2 : (k + 1 - 1) * count ≤ remain - count := by
        simp only [Nat.add_sub_cancel]
        omega
      have hrec := ih (remain - count) (by omega) hle2 (by omega)
      show count :: chunkCountsGo w count (wsub w remain count) (k + 1)
        = List.replicate (k + 1 + 1 - 1) count ++ [remain - (k + 1 + 1 - 1) * count]
      rw [hstep, hrec]
      simp only [Nat.add_sub_cancel]
      have h3 : remain - count - k * count = remain - (k + 1) * count := by omega
      rw [h3, List.replicate_succ]
      rfl

theorem chunkRemaindersGo_eq (w count : Nat) :
    ∀ n remain, 1 ≤ n → (n - 1) * count ≤ remain → remain < 2 ^ w →
    chunkRemaindersGo w count remain n
      = (List.range n).map (fun i => remain - i * count) := by
  intro n
  induction n with
  | zero => intro remain h1 _ _; omega
  | succ m ih =>
    intro remain _ hle hlt
    match m with
    | 0 => simp [chunkRemaindersGo, List.range_succ]
    | k + 1 =>
      have hle1 : (k + 1) * count ≤ remain := by
        simpa only [Nat.add_sub_cancel] using hle
      have hexp : (k + 1) * count = k * count + count := by ring
      have hcle : count ≤ remain := by omega
      have hstep : wsub w remain count = remain - count :=
        wsub_eq_sub w remain count hcle hlt
      have hle2 : (k + 1 - 1) * count ≤ remain - count := by
        simp only [Nat.add_sub_cancel]
        omega
      have hrec := ih (remain - count) (by omega) hle2 (by omega)
      show remain :: chunkRemaindersGo w count (wsub w remain count) (k + 1)
        = (List.range (k + 2)).map (fun i => remain - i * count)
      rw [hstep, hrec]
      conv_rhs => rw [List.range_succ_eq_map, List.map_cons, List.map_map]
      simp only [Nat.zero_mul, Nat.sub_zero]
      congr 1
      apply List.map_congr_left
      intro i _
      simp only [Function.comp_apply, Nat.succ_mul]
      omega

theorem div_mul_pred_le (total T : Nat) (hT : 1 ≤ T) :
    (T - 1) * (total / T) ≤ total := by
  have h1 : (T - 1) * (total / T) ≤ T * (total / T) :=
    Nat.mul_le_mul_right _ (by omega)
  have h2 : T * (total / T) ≤ total := by
    rw [Nat.mul_comm]; exact Nat.div_mul_le_self total T
  omega

/-- Closed form of the chunk counts under the in-range side conditions. -/
theorem chunkCounts_eq (w T total : Nat) (hT : 1 ≤ T) (hTw : T < 2 ^ w)
    (htot : total < 2 ^ w) :
    chunkCounts w T total
      = List.replicate (T - 1) (total / T) ++ [total - (T - 1) * (total / T)] := by
  unfold chunkCounts ncpuConst
  rw [Nat.mod_eq_of_lt hTw]
  exact chunkCountsGo_eq w (total / T) T total hT
    (div_mul_pred_le total T hT) htot

/-- Closed form of the running remainders under the in-range side
conditions. -/
theorem chunkRemainders_eq (w T total : Nat) (hT : 1 ≤ T) (hTw : T < 2 ^ w)
    (htot : total < 2 ^ w) :
    chunkRemainders w T total
      = (List.range T).map (fun i => total - i * (total / T)) := by
  unfold chunkRemainders ncpuConst
  rw [Nat.mod_eq_of_lt hTw]
  exact chunkRemaindersGo_eq w (total / T) T total hT
    (div_mul_pred_le total T hT) htot

/-- C1: for every total and every thread count T at least 1 (both
representable at the pointer width), the T chunk counts computed by the
dispatcher loop have length T, sum exactly to total, are each nonnegative,
and the first T - 1 of them all equal the uniform size total / T. -/
theorem C1_chunk_counts_partition (w T total : Nat) (hT : 1 ≤ T)
    (hTw : T < 2 ^ w) (htot : total < 2 ^ w) :
    (chunkCounts w T total).length = T ∧
    (chunkCounts w T total).sum = total ∧
    (∀ c ∈ chunkCounts w T total, 0 ≤ c) ∧
    (chunkCounts w T total).take (T - 1)
      = List.replicate (T - 1) (total / T) := by
  have hcle := div_mul_pred_le total T hT
  rw [chunkCounts_eq w T total hT hTw htot]
  refine ⟨?_, ?_, fun c _ => Nat.zero_le c, ?_⟩
  · simp only [List.length_append, List.length_replicate, List.length_singleton]
    omega
  · rw [List.sum_append, List.sum_replicate, List.sum_singleton, smul_eq_mul]
    omega
  · rw [List.take_append_of_le_length (by simp), List.take_replicate]
    congr 1
    omega

/-- Witness for C1 at w = 8, T = 3, total = 10. -/
theorem C1_chunk_counts_partition_witness :
    (1 ≤ 3 ∧ 3 < 2 ^ 8 ∧ 10 < 2 ^ 8) ∧
    ((chunkCounts 8 3 10).length = 3 ∧
     (chunkCounts 8 3 10).sum = 10 ∧
     (∀ c ∈ chunkCounts 8 3 10, 0 ≤ c) ∧
     (chunkCounts 8 3 10).take 2 = List.replicate 2 3) :=
  ⟨by norm_num,
   C1_chunk_counts_partition 8 3 10 (by norm_num) (by norm_num) (by norm_num)⟩

/-- C5: when total < T, the uniform chunk size is 0, the first T - 1 chunks
each get 0 and the last chunk gets total, and the running remainder stays
equal to total throughout the loop: it never drops below zero and the
width-w subtraction never wraps. -/
theorem C5_small_total_chunks (w T total : Nat) (hT : 1 ≤ T)
    (hTw : T < 2 ^ w) (htot : total < T) :
    total / T = 0 ∧
    chunkCounts w T total = List.replicate (T - 1) 0 ++ [total] ∧
    (∀ r ∈ chunkRemainders w T total, r = total) := by
  have htotw : total < 2 ^ w := lt_trans htot hTw
  have hdiv : total / T = 0 := Nat.div_eq_of_lt htot
  refine ⟨hdiv, ?_, ?_⟩
  · rw [chunkCounts_eq w T total hT hTw htotw, hdiv]
    simp
  · rw [chunkRemainders_eq w T total hT hTw htotw, hdiv]
    intro r hr
    simp only [List.mem_map] at hr
    obtain ⟨i, _, hi⟩ := hr
    omega

/-- Witness for C5 at w = 8, T = 4, total = 3. -/
theorem C5_small_total_chunks_witness :
    (1 ≤ 4 ∧ 4 < 2 ^ 8 ∧ 3 < 4) ∧
    (3 / 4 = 0 ∧
     chunkCounts 8 4 3 = List.replicate 3 0 ++ [3] ∧
     (∀ r ∈ chunkRemainders 8 4 3, r = 3)) :=
  ⟨by norm_num,
   C5_small_total_chunks 8 4 3 (by norm_num) (by norm_num) (by norm_num)⟩

/-- Per-lane, per-chunk base pointer of the generated dispatcher:
`offset = builder.mul(steps_list[j], builder.mul(count, i))` followed by
`addr = builder.add(base, offset)`, all at the intp width w (pointers are
converted with ptrtoint / inttoptr around the arithmetic). -/
def chunkLanePtr (w base step count i : Nat) : Nat :=
  wadd w base (wmul w step (wmul w count i))

/-- Array count of both kernel builders: number of inputs in the signature
plus one output array. -/
def array_count (numInputs : Nat) : Nat := numInputs + 1

/-- One task as submitted to numba_add_task by the generated code: the
argument-pointer buffer (a fresh alloca per chunk, identified by its chunk
index, holding one pointer per lane), the dimension buffer (also a fresh
alloca per chunk), and the steps and data pointers forwarded from the
wrapper arguments. -/
structure Task where
  argsBufId : Nat
  argPtrs : List Nat
  dimsBufId : Nat
  dims : List Nat
  stepsPtr : Nat
  dataPtr : Nat
deriving DecidableEq

instance : Inhabited Task :=
  ⟨{ argsBufId := 0, argPtrs := [], dimsBufId := 0, dims := [],
     stepsPtr := 0, dataPtr := 0 }⟩

/-- Contents of the per-chunk argument-pointer buffer: for each lane j the
chunk base pointer computed from args[j] and steps[j]. -/
def chunkArgPtrs (w numInputs : Nat) (argBases stepsVals : List Nat)
    (count i : Nat) : List Nat :=
  (List.range (array_count numInputs)).map fun j =>
    chunkLanePtr w (argBases.getD j 0) (stepsVals.getD j 0) count i

/-- Tasks submitted by the generated elementwise dispatcher of
build_ufunc_kernel, given the wrapper arguments: args (lane base pointers),
dimsArr (the dimensions array, whose head is the total count), stepsVals
(the loaded per-lane steps), and the raw steps / data pointer arguments.
The dimension buffer of chunk i holds the single count stored by the
distribution loop. -/
def ufuncTasks (w T numInputs : Nat) (argBases dimsArr stepsVals : List Nat)
    (stepsArg dataArg : Nat) : List Task :=
  let total := dimsArr.getD 0 0
  (List.range T).map fun i =>
    { argsBufId := i
      argPtrs := chunkArgPtrs w numInputs argBases stepsVals
        (total / ncpuConst w T) i
      dimsBufId := i
      dims := [(chunkCounts w T total).getD i 0]
      stepsPtr := stepsArg
      dataPtr := dataArg }

/-- Tasks submitted by the generated gufunc dispatcher of
build_gufunc_kernel: identical to the elementwise case except that the
dimension buffer of each chunk is a memcpy of the first inner_ndim + 1
entries of the original dimensions array, whose leading entry is then
overwritten with the chunk count. -/
def gufuncTasks (w T numInputs inner_ndim : Nat)
    (argBases dimsArr stepsVals : List Nat) (stepsArg dataArg : Nat) :
    List Task :=
  let total := dimsArr.getD 0 0
  (List.range T).map fun i =>
    { argsBufId := i
      argPtrs := chunkArgPtrs w numInputs argBases stepsVals
        (total / ncpuConst w T) i
      dimsBufId := i
      dims := (dimsArr.take (inner_ndim + 1)).set 0
        ((chunkCounts w T total).getD i 0)
      stepsPtr := stepsArg
      dataPtr := dataArg }

/-- Observable events of one dispatch call of the generated wrapper. -/
inductive Ev where
  | submit (t : Task)
  | ready
  | sync
  | ret
deriving DecidableEq

/-- Test for a task-submission event. -/
def Ev.isSubmit : Ev → Bool
  | .submit _ => true
  | _ => false

/-- The call sequence emitted by both kernel builders: one numba_add_task
call per chunk in order, then numba_ready, then numba_synchronize, then the
return. -/
def dispatchTrace (tasks : List Task) : List Ev :=
  tasks.map Ev.submit ++ [Ev.ready, Ev.sync, Ev.ret]

/-- Trace of one call of the generated elementwise wrapper. -/
def ufuncTrace (w T numInputs : Nat) (argBases dimsArr stepsVals : List Nat)
    (stepsArg dataArg : Nat) : List Ev :=
  dispatchTrace (ufuncTasks w T numInputs argBases dimsArr stepsVals
    stepsArg dataArg)

/-- Trace of one call of the generated gufunc wrapper. -/
def gufuncTrace (w T numInputs inner_ndim : Nat)
    (argBases dimsArr stepsVals : List Nat) (stepsArg dataArg : Nat) :
    List Ev :=
  dispatchTrace (gufuncTasks w T numInputs inner_ndim argBases dimsArr
    stepsVals stepsArg dataArg)

theorem getD_map_range {α : Type} (f : Nat → α) (n i : Nat) (h : i < n)
    (d : α) : ((List.range n).map f).getD i d = f i := by
  rw [List.getD_eq_getElem?_getD, List.getElem?_map, List.getElem?_range h]
  rfl

theorem mul_mod_absorb (s c m : Nat) : (s * (c % m)) % m = (s * c) % m := by
  conv_rhs => rw [Nat.mul_mod]
  rw [Nat.mul_mod, Nat.mod_mod_of_dvd _ dvd_rfl]

/-- Collapsing the nested width-w reductions of the generated pointer
computation into a single reduction of the exact offset formula. -/
theorem chunkLanePtr_eq_mod (w base step count i : Nat) :
    chunkLanePtr w base step count i
      = (base + step * (count * i)) % 2 ^ w := by
  unfold chunkLanePtr wadd wmul
  conv_rhs => rw [Nat.add_mod]
  rw [Nat.add_mod base, mul_mod_absorb, Nat.mod_mod_of_dvd _ dvd_rfl]

/-- C2: for every lane j among the array_count = num_inputs + 1 lanes and
every chunk i, the chunk base pointer stored by the generated elementwise
dispatcher equals original base pointer plus steps[j] * count * i at the
pointer width, where count is the uniform chunk size total / T; the formula
does not involve the possibly larger last chunk count, so the last chunk
size changes no chunk start. -/
theorem C2_chunk_base_pointer (w T numInputs : Nat)
    (argBases dimsArr stepsVals : List Nat) (stepsArg dataArg i j : Nat)
    (hi : i < T) (hj : j < array_count numInputs) :
    ((ufuncTasks w T numInputs argBases dimsArr stepsVals stepsArg
        dataArg).getD i default).argPtrs.getD j 0
      = (argBases.getD j 0
          + stepsVals.getD j 0 * ((dimsArr.getD 0 0 / ncpuConst w T) * i))
          % 2 ^ w := by
  unfold ufuncTasks
  rw [getD_map_range _ T i hi]
  unfold chunkArgPtrs
  rw [getD_map_range _ _ j hj]
  exact chunkLanePtr_eq_mod w _ _ _ i

/-- Witness for C2 at w = 8, T = 2, one input lane, total = 7, chunk 1,
lane 1. -/
theorem C2_chunk_base_pointer_witness :
    (1 < 2 ∧ 1 < array_count 1) ∧
    ((ufuncTasks 8 2 1 [10, 100] [7] [1, 2] 55 66).getD 1
        default).argPtrs.getD 1 0
      = (100 + 2 * ((7 / ncpuConst 8 2) * 1)) % 2 ^ 8 :=
  ⟨by decide,
   by
    have h := C2_chunk_base_pointer 8 2 1 [10, 100] [7] [1, 2] 55 66 1 1
      (by decide) (by decide)
    simpa using h⟩

theorem chunkCounts_getD_of_lt (w T total : Nat) (hT : 1 ≤ T)
    (hTw : T < 2 ^ w) (htot : total < 2 ^ w) (k : Nat) (hk : k < T - 1) :
    (chunkCounts w T total).getD k 0 = total / T := by
  rw [chunkCounts_eq w T total hT hTw htot, List.getD_eq_getElem?_getD,
    List.getElem?_append_left (by simpa using hk)]
  simp [List.getElem?_replicate, hk]

theorem chunkCounts_getD_last (w T total : Nat) (hT : 1 ≤ T)
    (hTw : T < 2 ^ w) (htot : total < 2 ^ w) :
    (chunkCounts w T total).getD (T - 1) 0
      = total - (T - 1) * (total / T) := by
  rw [chunkCounts_eq w T total hT hTw htot, List.getD_eq_getElem?_getD,
    List.getElem?_append_right (by simp)]
  simp

/-- Each chunk stays inside the iteration space: the uniform start offset of
chunk k plus the count of chunk k never exceeds total. -/
theorem chunkCounts_getD_add_le (w T total : Nat) (hT : 1 ≤ T)
    (hTw : T < 2 ^ w) (htot : total < 2 ^ w) (k : Nat) (hk : k < T) :
    (total / T) * k + (chunkCounts w T total).getD k 0 ≤ total := by
  have hcomm : (total / T) * (T - 1) = (T - 1) * (total / T) :=
    Nat.mul_comm _ _
  have hbound := div_mul_pred_le total T hT
  by_cases hk1 : k < T - 1
  · rw [chunkCounts_getD_of_lt w T total hT hTw htot k hk1]
    have h1 : (total / T) * k + total / T = (total / T) * (k + 1) := by ring
    have h2 : (total / T) * (k + 1) ≤ (total / T) * (T - 1) :=
      Nat.mul_le_mul_left _ (by omega)
    omega
  · have hk2 : k = T - 1 := by omega
    rw [hk2, chunkCounts_getD_last w T total hT hTw htot]
    omega

/-- Byte addresses touched by chunk i on a lane with the given base and
step: the chunk base pointer computed by the dispatcher, advanced by step
for each of the count elements of the chunk, at pointer width w. -/
def laneChunkBytes (w T base step total i : Nat) : Finset Nat :=
  (Finset.range ((chunkCounts w T total).getD i 0)).image fun k =>
    wadd w (chunkLanePtr w base step (total / ncpuConst w T) i) (wmul w step k)

/-- Element addresses evaluate exactly when the arithmetic stays below the
pointer-width modulus. -/
theorem laneChunkBytes_addr_exact (w base step c i k : Nat)
    (h : base + step * (c * i + k) < 2 ^ w) :
    wadd w (chunkLanePtr w base step c i) (wmul w step k)
      = base + step * (c * i + k) := by
  have hmod : wadd w (chunkLanePtr w base step c i) (wmul w step k)
      = (base + step * (c * i + k)) % 2 ^ w := by
    rw [chunkLanePtr_eq_mod]
    unfold wadd wmul
    have h1 : ((base + step * (c * i)) % 2 ^ w + step * k % 2 ^ w) % 2 ^ w
        = (base + step * (c * i) + step * k) % 2 ^ w :=
      (Nat.mod_modEq _ _).add (Nat.mod_modEq _ _)
    rw [h1, show base + step * (c * i) + step * k
      = base + step * (c * i + k) from by ring]
  rw [hmod, Nat.mod_eq_of_lt h]

/-- C6 counterexample: the claim quantifies over every byte step, but for a
lane with step 0 all chunks start at the same address; with total = 2 and
T = 2 both chunks cover the single byte at the base address, so their byte
ranges overlap. -/
theorem C6_step_zero_overlap :
    ¬ Disjoint (laneChunkBytes 8 2 0 0 2 0) (laneChunkBytes 8 2 0 0 2 1) := by
  decide

/-- C6 amended: for every lane with a positive byte step, whenever the lane
addressing stays below the pointer-width modulus, the byte ranges covered by
distinct chunks are pairwise disjoint, so no two worker threads touch the
same byte of that lane. -/
theorem C6_chunk_byte_ranges_disjoint (w T base step total i j : Nat)
    (hT : 1 ≤ T) (hTw : T < 2 ^ w) (htot : total < 2 ^ w)
    (hstep : 1 ≤ step) (hnw : base + step * total ≤ 2 ^ w)
    (hij : i < j) (hj : j < T) :
    Disjoint (laneChunkBytes w T base step total i)
      (laneChunkBytes w T base step total j) := by
  have hTT : ncpuConst w T = T := Nat.mod_eq_of_lt hTw
  rw [Finset.disjoint_left]
  intro a hai haj
  simp only [laneChunkBytes, Finset.mem_image, Finset.mem_range, hTT]
    at hai haj
  obtain ⟨k1, hk1, he1⟩ := hai
  obtain ⟨k2, hk2, he2⟩ := haj
  have hi : i < T := lt_trans hij hj
  have hin1 : (total / T) * i + k1 < total := by
    have := chunkCounts_getD_add_le w T total hT hTw htot i hi
    omega
  have hin2 : (total / T) * j + k2 < total := by
    have := chunkCounts_getD_add_le w T total hT hTw htot j hj
    omega
  have hlt1 : base + step * ((total / T) * i + k1) < 2 ^ w := by
    have hmul : step * ((total / T) * i + k1 + 1) ≤ step * total :=
      Nat.mul_le_mul_left step (by omega)
    have hexp : step * ((total / T) * i + k1 + 1)
        = step * ((total / T) * i + k1) + step := by ring
    omega
  have hlt2 : base + step * ((total / T) * j + k2) < 2 ^ w := by
    have hmul : step * ((total / T) * j + k2 + 1) ≤ step * total :=
      Nat.mul_le_mul_left step (by omega)
    have hexp : step * ((total / T) * j + k2 + 1)
        = step * ((total / T) * j + k2) + step := by ring
    omega
  rw [laneChunkBytes_addr_exact w base step _ i k1 hlt1] at he1
  rw [laneChunkBytes_addr_exact w base step _ j k2 hlt2] at he2
  have heq : (total / T) * i + k1 = (total / T) * j + k2 := by
    have hmul : step * ((total / T) * i + k1)
        = step * ((total / T) * j + k2) := by omega
    exact Nat.eq_of_mul_eq_mul_left (by omega) hmul
  have hcnt_i : (chunkCounts w T total).getD i 0 = total / T :=
    chunkCounts_getD_of_lt w T total hT hTw htot i (by omega)
  have hsep : (total / T) * i + k1 < (total / T) * j := by
    have h1 : (total / T) * i + total / T = (total / T) * (i + 1) := by ring
    have h2 : (total / T) * (i + 1) ≤ (total / T) * j :=
      Nat.mul_le_mul_left _ (by omega)
    omega
  omega

/-- Witness for the amended C6 at w = 8, T = 2, base 0, step 2, total 5. -/
theorem C6_chunk_byte_ranges_disjoint_witness :
    (1 ≤ 2 ∧ 2 < 2 ^ 8 ∧ 5 < 2 ^ 8 ∧ 1 ≤ 2 ∧ 0 + 2 * 5 ≤ 2 ^ 8 ∧
      0 < 1 ∧ 1 < 2) ∧
    Disjoint (laneChunkBytes 8 2 0 2 5 0) (laneChunkBytes 8 2 0 2 5 1) :=
  ⟨by norm_num,
   C6_chunk_byte_ranges_disjoint 8 2 0 2 5 0 1 (by norm_num) (by norm_num)
     (by norm_num) (by norm_num) (by norm_num) (by norm_num) (by norm_num)⟩

theorem trailer_not_submit (d : Nat) :
    ([Ev.ready, Ev.sync, Ev.ret].getD d Ev.ret).isSubmit = false := by
  match d with
  | 0 => rfl
  | 1 => rfl
  | 2 => rfl
  | n + 3 => rfl

/-- Structure of the call sequence emitted after the per-chunk setup: one
submission per task, all strictly before the single ready call, which
precedes the single synchronize call, which precedes the return. -/
theorem dispatchTrace_spec (tasks : List Task) :
    (dispatchTrace tasks).countP Ev.isSubmit = tasks.length ∧
    (∀ k, k < (dispatchTrace tasks).length →
      ((dispatchTrace tasks).getD k Ev.ret).isSubmit = true →
      k < tasks.length) ∧
    (dispatchTrace tasks).getD tasks.length Ev.ret = Ev.ready ∧
    (dispatchTrace tasks).getD (tasks.length + 1) Ev.ret = Ev.sync ∧
    (dispatchTrace tasks).getD (tasks.length + 2) Ev.ret = Ev.ret ∧
    (dispatchTrace tasks).length = tasks.length + 3 := by
  have hgetr : ∀ n, tasks.length ≤ n →
      (dispatchTrace tasks).getD n Ev.ret
        = [Ev.ready, Ev.sync, Ev.ret].getD (n - tasks.length) Ev.ret := by
    intro n hn
    unfold dispatchTrace
    rw [List.getD_eq_getElem?_getD,
      List.getElem?_append_right (by simpa using hn),
      List.getD_eq_getElem?_getD]
    simp
  refine ⟨?_, ?_, ?_, ?_, ?_, ?_⟩
  · unfold dispatchTrace
    rw [List.countP_append, List.countP_map]
    have h1 : List.countP (Ev.isSubmit ∘ Ev.submit) tasks = tasks.length := by
      apply List.countP_eq_length.mpr
      intro a _
      rfl
    have h2 : List.countP Ev.isSubmit [Ev.ready, Ev.sync, Ev.ret] = 0 := by
      decide
    omega
  · intro k _ hsub
    by_contra hge
    rw [hgetr k (by omega), trailer_not_submit] at hsub
    exact Bool.false_ne_true hsub
  · rw [hgetr tasks.length (by omega), Nat.sub_self]
    rfl
  · rw [hgetr (tasks.length + 1) (by omega), Nat.add_sub_cancel_left]
    rfl
  · rw [hgetr (tasks.length + 2) (by omega), Nat.add_sub_cancel_left]
    rfl
  · unfold dispatchTrace
    simp

theorem ufuncTasks_length (w T numInputs : Nat)
    (argBases dimsArr stepsVals : List Nat) (stepsArg dataArg : Nat) :
    (ufuncTasks w T numInputs argBases dimsArr stepsVals stepsArg
      dataArg).length = T := by
  unfold ufuncTasks
  simp

theorem gufuncTasks_length (w T numInputs inner_ndim : Nat)
    (argBases dimsArr stepsVals : List Nat) (stepsArg dataArg : Nat) :
    (gufuncTasks w T numInputs inner_ndim argBases dimsArr stepsVals stepsArg
      dataArg).length = T := by
  unfold gufuncTasks
  simp

/-- C7: in every dispatch call generated by either variant, exactly T task
submissions are issued, all T of them occur before the single ready signal,
the ready signal precedes the single synchronize call, and the synchronize
call precedes the return of the wrapper. -/
theorem C7_submissions_before_barrier (w T numInputs inner_ndim : Nat)
    (argBases dimsArr stepsVals : List Nat) (stepsArg dataArg : Nat) :
    ((ufuncTrace w T numInputs argBases dimsArr stepsVals stepsArg
        dataArg).countP Ev.isSubmit = T ∧
     (∀ k, k < (ufuncTrace w T numInputs argBases dimsArr stepsVals stepsArg
        dataArg).length →
       ((ufuncTrace w T numInputs argBases dimsArr stepsVals stepsArg
         dataArg).getD k Ev.ret).isSubmit = true → k < T) ∧
     (ufuncTrace w T numInputs argBases dimsArr stepsVals stepsArg
       dataArg).getD T Ev.ret = Ev.ready ∧
     (ufuncTrace w T numInputs argBases dimsArr stepsVals stepsArg
       dataArg).getD (T + 1) Ev.ret = Ev.sync ∧
     (ufuncTrace w T numInputs argBases dimsArr stepsVals stepsArg
       dataArg).getD (T + 2) Ev.ret = Ev.ret ∧
     (ufuncTrace w T numInputs argBases dimsArr stepsVals stepsArg
       dataArg).length = T + 3) ∧
    ((gufuncTrace w T numInputs inner_ndim argBases dimsArr stepsVals
        stepsArg dataArg).countP Ev.isSubmit = T ∧
     (∀ k, k < (gufuncTrace w T numInputs inner_ndim argBases dimsArr
        stepsVals stepsArg dataArg).length →
       ((gufuncTrace w T numInputs inner_ndim argBases dimsArr stepsVals
         stepsArg dataArg).getD k Ev.ret).isSubmit = true → k < T) ∧
     (gufuncTrace w T numInputs inner_ndim argBases dimsArr stepsVals
       stepsArg dataArg).getD T Ev.ret = Ev.ready ∧
     (gufuncTrace w T numInputs inner_ndim argBases dimsArr stepsVals
       stepsArg dataArg).getD (T + 1) Ev.ret = Ev.sync ∧
     (gufuncTrace w T numInputs inner_ndim argBases dimsArr stepsVals
       stepsArg dataArg).getD (T + 2) Ev.ret = Ev.ret ∧
     (gufuncTrace w T numInputs inner_ndim argBases dimsArr stepsVals
       stepsArg dataArg).length = T + 3) := by
  constructor
  · have h := dispatchTrace_spec (ufuncTasks w T numInputs argBases dimsArr
      stepsVals stepsArg dataArg)
    rw [ufuncTasks_length] at h
    exact h
  · have h := dispatchTrace_spec (gufuncTasks w T numInputs inner_ndim
      argBases dimsArr stepsVals stepsArg dataArg)
    rw [gufuncTasks_length] at h
    exact h

/-- Witness for C7 at w = 8, T = 2, one input, inner_ndim = 1. -/
theorem C7_submissions_before_barrier_witness :
    ((ufuncTrace 8 2 1 [0, 4] [5, 3] [1, 1] 9 7).countP Ev.isSubmit = 2 ∧
     (∀ k, k < (ufuncTrace 8 2 1 [0, 4] [5, 3] [1, 1] 9 7).length →
       ((ufuncTrace 8 2 1 [0, 4] [5, 3] [1, 1] 9 7).getD k
         Ev.ret).isSubmit = true → k < 2) ∧
     (ufuncTrace 8 2 1 [0, 4] [5, 3] [1, 1] 9 7).getD 2 Ev.ret = Ev.ready ∧
     (ufuncTrace 8 2 1 [0, 4] [5, 3] [1, 1] 9 7).getD 3 Ev.ret = Ev.sync ∧
     (ufuncTrace 8 2 1 [0, 4] [5, 3] [1, 1] 9 7).getD 4 Ev.ret = Ev.ret ∧
     (ufuncTrace 8 2 1 [0, 4] [5, 3] [1, 1] 9 7).length = 2 + 3) ∧
    ((gufuncTrace 8 2 1 1 [0, 4] [5, 3] [1, 1] 9 7).countP Ev.isSubmit = 2 ∧
     (∀ k, k < (gufuncTrace 8 2 1 1 [0, 4] [5, 3] [1, 1] 9 7).length →
       ((gufuncTrace 8 2 1 1 [0, 4] [5, 3] [1, 1] 9 7).getD k
         Ev.ret).isSubmit = true → k < 2) ∧
     (gufuncTrace 8 2 1 1 [0, 4] [5, 3] [1, 1] 9 7).getD 2 Ev.ret
       = Ev.ready ∧
     (gufuncTrace 8 2 1 1 [0, 4] [5, 3] [1, 1] 9 7).getD 3 Ev.ret
       = Ev.sync ∧
     (gufuncTrace 8 2 1 1 [0, 4] [5, 3] [1, 1] 9 7).getD 4 Ev.ret
       = Ev.ret ∧
     (gufuncTrace 8 2 1 1 [0, 4] [5, 3] [1, 1] 9 7).length = 2 + 3) :=
  C7_submissions_before_barrier 8 2 1 1 [0, 4] [5, 3] [1, 1] 9 7

/-- C10: in both variants every submitted task carries the very steps
pointer and the very user-data pointer that were passed to the wrapper,
shared across all T tasks, while the per-lane pointer buffer and the
dimension buffer of distinct tasks are distinct allocations. -/
theorem C10_shared_steps_data (w T numInputs inner_ndim : Nat)
    (argBases dimsArr stepsVals : List Nat) (stepsArg dataArg : Nat) :
    (∀ t ∈ ufuncTasks w T numInputs argBases dimsArr stepsVals stepsArg
        dataArg, t.stepsPtr = stepsArg ∧ t.dataPtr = dataArg) ∧
    (∀ t ∈ gufuncTasks w T numInputs inner_ndim argBases dimsArr stepsVals
        stepsArg dataArg, t.stepsPtr = stepsArg ∧ t.dataPtr = dataArg) ∧
    (ufuncTasks w T numInputs argBases dimsArr stepsVals stepsArg
        dataArg).Pairwise
      (fun a b => a.argsBufId ≠ b.argsBufId ∧ a.dimsBufId ≠ b.dimsBufId) ∧
    (gufuncTasks w T numInputs inner_ndim argBases dimsArr stepsVals
        stepsArg dataArg).Pairwise
      (fun a b => a.argsBufId ≠ b.argsBufId ∧ a.dimsBufId ≠ b.dimsBufId) := by
  refine ⟨?_, ?_, ?_, ?_⟩
  · intro t ht
    simp only [ufuncTasks, List.mem_map, List.mem_range] at ht
    obtain ⟨i, _, rfl⟩ := ht
    exact ⟨rfl, rfl⟩
  · intro t ht
    simp only [gufuncTasks, List.mem_map, List.mem_range] at ht
    obtain ⟨i, _, rfl⟩ := ht
    exact ⟨rfl, rfl⟩
  · unfold ufuncTasks
    rw [List.pairwise_map]
    exact List.pairwise_lt_range T |>.imp fun hab =>
      ⟨Nat.ne_of_lt hab, Nat.ne_of_lt hab⟩
  · unfold gufuncTasks
    rw [List.pairwise_map]
    exact List.pairwise_lt_range T |>.imp fun hab =>
      ⟨Nat.ne_of_lt hab, Nat.ne_of_lt hab⟩

/-- Witness for C10 at w = 8, T = 2, one input, inner_ndim = 1. -/
theorem C10_shared_steps_data_witness :
    (∀ t ∈ ufuncTasks 8 2 1 [0, 4] [5, 3] [1, 1] 9 7,
      t.stepsPtr = 9 ∧ t.dataPtr = 7) ∧
    (∀ t ∈ gufuncTasks 8 2 1 1 [0, 4] [5, 3] [1, 1] 9 7,
      t.stepsPtr = 9 ∧ t.dataPtr = 7) ∧
    (ufuncTasks 8 2 1 [0, 4] [5, 3] [1, 1] 9 7).Pairwise
      (fun a b => a.argsBufId ≠ b.argsBufId ∧ a.dimsBufId ≠ b.dimsBufId) ∧
    (gufuncTasks 8 2 1 1 [0, 4] [5, 3] [1, 1] 9 7).Pairwise
      (fun a b => a.argsBufId ≠ b.argsBufId ∧ a.dimsBufId ≠ b.dimsBufId) :=
  C10_shared_steps_data 8 2 1 1 [0, 4] [5, 3] [1, 1] 9 7

/-- C4: in the generalized variant, for every inner dimensionality and every
chunk, the dimension buffer has inner_ndim + 1 entries, the entries at
positions 1 .. inner_ndim are copied verbatim from the original dimensions
array, and the leading entry is the chunk count of the distribution loop,
identical to the single entry the elementwise variant stores for the same
chunk. -/
theorem C4_gufunc_inner_dims (w T numInputs inner_ndim : Nat)
    (argBases dimsArr stepsVals : List Nat) (stepsArg dataArg i : Nat)
    (hi : i < T) (hlen : inner_ndim + 1 ≤ dimsArr.length) :
    ((gufuncTasks w T numInputs inner_ndim argBases dimsArr stepsVals
        stepsArg dataArg).getD i default).dims.length = inner_ndim + 1 ∧
    ((gufuncTasks w T numInputs inner_ndim argBases dimsArr stepsVals
        stepsArg dataArg).getD i default).dims.drop 1
      = (dimsArr.drop 1).take inner_ndim ∧
    ((gufuncTasks w T numInputs inner_ndim argBases dimsArr stepsVals
        stepsArg dataArg).getD i default).dims.getD 0 0
      = (chunkCounts w T (dimsArr.getD 0 0)).getD i 0 ∧
    ((gufuncTasks w T numInputs inner_ndim argBases dimsArr stepsVals
        stepsArg dataArg).getD i default).dims.getD 0 0
      = ((ufuncTasks w T numInputs argBases dimsArr stepsVals stepsArg
          dataArg).getD i default).dims.getD 0 0 := by
  unfold gufuncTasks ufuncTasks
  rw [getD_map_range _ T i hi, getD_map_range _ T i hi]
  match dimsArr, hlen with
  | d0 :: rest, hlen =>
    have hrest : inner_ndim ≤ rest.length := by
      simpa using hlen
    refine ⟨?_, ?_, ?_, ?_⟩
    · simp only [List.take_cons, List.set_cons_zero, List.length_cons,
        List.length_take, List.length_set]
      omega
    · simp [List.take_cons, List.set_cons_zero]
    · simp [List.take_cons, List.set_cons_zero]
    · simp [List.take_cons, List.set_cons_zero]

/-- Witness for C4 at w = 8, T = 2, inner_ndim = 2, dimensions [7, 4, 5]. -/
theorem C4_gufunc_inner_dims_witness :
    (1 < 2 ∧ 2 + 1 ≤ ([7, 4, 5] : List Nat).length) ∧
    (((gufuncTasks 8 2 1 2 [0, 4] [7, 4, 5] [1, 1] 9 7).getD 1
        default).dims.length = 2 + 1 ∧
     ((gufuncTasks 8 2 1 2 [0, 4] [7, 4, 5] [1, 1] 9 7).getD 1
        default).dims.drop 1 = (([7, 4, 5] : List Nat).drop 1).take 2 ∧
     ((gufuncTasks 8 2 1 2 [0, 4] [7, 4, 5] [1, 1] 9 7).getD 1
        default).dims.getD 0 0
       = (chunkCounts 8 2 (([7, 4, 5] : List Nat).getD 0 0)).getD 1 0 ∧
     ((gufuncTasks 8 2 1 2 [0, 4] [7, 4, 5] [1, 1] 9 7).getD 1
        default).dims.getD 0 0
       = ((ufuncTasks 8 2 1 [0, 4] [7, 4, 5] [1, 1] 9 7).getD 1
          default).dims.getD 0 0) :=
  ⟨⟨by norm_num, by norm_num⟩,
   C4_gufunc_inner_dims 8 2 1 2 [0, 4] [7, 4, 5] [1, 1] 9 7 1 (by norm_num)
     (by norm_num)⟩

/-- Embedding of the cmpxchg monotonic instruction of the generated CAS
function of _make_cas_function on the single target word: returns the new
memory word together with the pair extracted by the two extract_value
instructions, namely the loaded previous value and the success flag. -/
def cmpxchg (mem expected desired : Nat) : Nat × Nat × Bool :=
  if mem = expected then (desired, mem, true) else (mem, mem, false)

/-- The generated CAS function body: cmpxchg, extract the loaded value and
the flag, and return select(flag, expected, loaded); the result is the new
memory word paired with the returned value. The local named `failed` in the
source holds the success flag of the exchange. -/
def casFn (mem expected desired : Nat) : Nat × Nat :=
  let outpack := cmpxchg mem expected desired
  let out := outpack.2.1
  let failed := outpack.2.2
  (outpack.1, if failed then expected else out)

/-- C3: the generated compare-and-swap satisfies its contract: on mismatch
it leaves the word unmodified and returns the actual current value; on
match it stores desired and returns expected. -/
theorem C3_cas_contract (mem expected desired : Nat) :
    (mem ≠ expected → casFn mem expected desired = (mem, mem)) ∧
    (mem = expected → casFn mem expected desired = (desired, expected)) := by
  constructor <;> intro h <;> simp [casFn, cmpxchg, h]

/-- Witness for C3: a mismatching word 5 against expected 3 and a matching
word 3 against expected 3, with desired value 7. -/
theorem C3_cas_contract_witness :
    ((5 : Nat) ≠ 3 ∧ casFn 5 3 7 = (5, 5)) ∧
    ((3 : Nat) = 3 ∧ casFn 3 3 7 = (7, 3)) :=
  ⟨⟨by decide, (C3_cas_contract 5 3 7).1 (by decide)⟩,
   ⟨rfl, (C3_cas_contract 3 3 7).2 rfl⟩⟩

/-- State of the workqueue library as seen through this module: the global
CAS function pointer installed with set_cas; 0 is the null pointer. -/
structure WorkqueueState where
  casFnPtr : Nat
deriving DecidableEq

/-- The set_cas entry point of the workqueue library. -/
def set_cas (p : Nat) (_s : WorkqueueState) : WorkqueueState :=
  { casFnPtr := p }

/-- The guard object _ProtectEngineDestroy, holding the set_cas binding and
the engine that owns the machine code of the CAS function, identified here
by the pointer of that generated function. -/
structure ProtectEngineDestroy where
  enginePtr : Nat
deriving DecidableEq

/-- Destructor of the guard: calls set_cas with 0. -/
def protectEngineDestroy_del (_g : ProtectEngineDestroy)
    (s : WorkqueueState) : WorkqueueState :=
  set_cas 0 s

/-- The _init sequence: build the CAS function, register its pointer with
set_cas, and construct the keepalive guard. -/
def init_cas (casPtr : Nat) (s : WorkqueueState) :
    WorkqueueState × ProtectEngineDestroy :=
  (set_cas casPtr s, { enginePtr := casPtr })

/-- C9: destroying the lifetime guard always invokes the registered nulling
function with 0, so after construction followed by destruction the global
CAS function pointer is null, whatever it held before; destruction from any
state nulls the pointer. -/
theorem C9_guard_nulls_cas (casPtr : Nat) (s : WorkqueueState) :
    (protectEngineDestroy_del (init_cas casPtr s).2
      (init_cas casPtr s).1).casFnPtr = 0 ∧
    (∀ g s2, (protectEngineDestroy_del g s2).casFnPtr = 0) :=
  ⟨rfl, fun _ _ => rfl⟩

/-- Whether the NUMBA_DYLD_WORKAROUND environment variable is present; the
environment is modelled as the optional integer value of that variable. -/
def dyldWorkaroundSet (env : Option Int) : Bool := env.isSome

/-- Integer value of the workaround variable, defaulting to 0 when unset. -/
def dyldWorkaroundVal (env : Option Int) : Int := env.getD 0

/-- Process-wide worker-pool state: whether launch_threads has run. -/
structure PoolState where
  launched : Bool
deriving DecidableEq

/-- The _launch_threads call: starts the pool workers. -/
def launch_threads (_s : PoolState) : PoolState := { launched := true }

/-- The module-load tail of the source: launch eagerly when the workaround
variable is set with a nonzero value; otherwise, when the variable is not
set at all, launch eagerly anyway on the automatic platform (Python 2.6,
64-bit Linux); in the remaining case (variable set to zero) do nothing. -/
def moduleLoadLaunch (env : Option Int) (autoPlat : Bool) (s : PoolState) :
    PoolState :=
  if dyldWorkaroundSet env = true ∧ dyldWorkaroundVal env ≠ 0 then
    launch_threads s
  else if dyldWorkaroundSet env = false then
    (if autoPlat = true then launch_threads s else s)
  else s

/-- Both ParallelUFuncBuilder.build and ParallelGUFuncBuilder.build start by
calling _launch_threads, so the first wrapper build launches the pool. -/
def builderBuild (s : PoolState) : PoolState := launch_threads s

/-- C8 counterexample: with the workaround variable unset and the automatic
platform condition true, the pool is launched eagerly at module load even
though the toggle is not set with a nonzero value, refuting the claimed
equivalence. -/
theorem C8_auto_platform_launch :
    (moduleLoadLaunch none true { launched := false }).launched = true ∧
    ¬ (dyldWorkaroundSet none = true ∧ dyldWorkaroundVal none ≠ 0) := by
  constructor
  · rfl
  · intro h
    exact Bool.false_ne_true h.1

/-- C8 amended: the pool is eagerly launched at module load exactly when
the workaround variable is set with nonzero value, or when it is unset and
the platform is the automatic one (Python 2.6 on 64-bit Linux); in every
other case launch is deferred and happens on the first wrapper build. -/
theorem C8_eager_launch_condition (env : Option Int) (autoPlat : Bool) :
    ((moduleLoadLaunch env autoPlat { launched := false }).launched = true ↔
      ((dyldWorkaroundSet env = true ∧ dyldWorkaroundVal env ≠ 0) ∨
       (dyldWorkaroundSet env = false ∧ autoPlat = true))) ∧
    (builderBuild
      (moduleLoadLaunch env autoPlat { launched := false })).launched
      = true := by
  constructor
  · cases env with
    | none =>
      cases autoPlat <;>
        simp [moduleLoadLaunch, dyldWorkaroundSet, dyldWorkaroundVal,
          launch_threads]
    | some v =>
      by_cases hv : v = 0 <;>
        simp [moduleLoadLaunch, dyldWorkaroundSet, dyldWorkaroundVal,
          launch_threads, hv]
  · rfl

end NumbaParallel
